import Mathlib

/-!
Shallow embedding of the core of the `youtube-video-dubbing` repository
(package `custom_dubber`), covering:

* the Transcript Segment Merger `concat_close_transcripts`
  (`src/custom_dubber/utils.py`, lines 66-98), both as a pure function on
  segment values and as a store/index model that tracks Python object
  identity and in-place mutation;
* the Timed Audio Assembler placement policy
  (`audio_processing.insert_audio_at_timestamps`, called from
  `src/custom_dubber/main.py` line 166; the module itself is not present
  in `src/`, so it is modelled from the spec);
* the translation retry loop `TranslationGemini._translate_text`
  (`src/custom_dubber/translation_gemini.py`, lines 37-91).

Times are modelled as rationals (Python floats; all the arithmetic the
claims exercise — addition, subtraction, comparison, floor — is exact on
floats in the relevant range).  Fallible code (Python `KeyError`) is
modelled with `Except`.
-/

deriving instance DecidableEq for Except

namespace CustomDubber

/-- A transcript segment, mirroring the dictionaries
`{"start": ..., "end": ..., "text": ..., "translated_text": ...}` built in
`utils.py`.  The field `translated_text` is optional: the key is absent on
fragments produced before the translation stage (`extract_transcripts`
builds dictionaries without it). -/
structure Segment where
  start : ℚ
  end_ : ℚ
  text : String
  translated_text : Option String
deriving DecidableEq, Inhabited

/-- Word counter over a character list, mirroring Python `str.split()`:
counts maximal runs of non-whitespace characters.  `inWord` records
whether the previous character was part of a word. -/
def wordCount : List Char → Bool → ℕ
  | [], _ => 0
  | c :: rest, inWord =>
    if c.isWhitespace then wordCount rest false
    else (if inWord then 0 else 1) + wordCount rest true

/-- Models Python `len(s.split())`. -/
def numWords (s : String) : ℕ := wordCount s.data false

/-- Models the f-string interpolation of `diff_seconds = max(0, diff // 1)`
in `utils.py` line 85: `diff // 1` is the float floor of `diff`; Python's
`max(0, x)` returns the float `x` when `x > 0` and the int `0` otherwise,
and an integral positive float below 2^53 is rendered `"n.0"` while the
int `0` is rendered `"0"`. -/
def pauseNum (diff : ℚ) : String :=
  if 0 < ⌊diff⌋ then toString ⌊diff⌋ ++ ".0" else "0"

/-- The full pause annotation inserted between merged texts
(`utils.py` lines 88-94): `"\n (pause for {diff_seconds} seconds). \n"`. -/
def pauseTag (diff : ℚ) : String :=
  "\n (pause for " ++ pauseNum diff ++ " seconds). \n"

/-- The constant `max_duration = 2 * 60` from `utils.py` line 71. -/
def max_duration : ℚ := 120

/-- One pass of the loop body of `concat_close_transcripts`
(`utils.py` lines 73-96), with `previous` the open segment
(`concatenated[-1]`) and the list argument the remaining fragments.

Faithful points: the start nudge (`previous["start"] += threshold`, line
78) happens before the merge condition is evaluated and is kept even when
the condition then fails; the merge condition (lines 81-84) uses the
nudged start; the `translated_text` append (line 91) reads both
dictionaries unconditionally, so a missing key raises `KeyError`
(modelled as `Except.error`). -/
def concatGo (t : ℚ) (previous : Segment) : List Segment → Except String (List Segment)
  | [] => Except.ok [previous]
  | current :: rest =>
    let diff := current.start - previous.end_
    let nudge : Bool := numWords previous.text < 3 || numWords current.text < 3
    let previous1 := if nudge then { previous with start := previous.start + t } else previous
    let factor : ℚ := if nudge then 2 else 1
    if diff ≤ t * factor ∧ current.end_ - previous1.start ≤ max_duration then
      match previous1.translated_text, current.translated_text with
      | some pt, some ct =>
        concatGo t { previous1 with
          end_ := current.end_,
          text := previous1.text ++ pauseTag diff ++ current.text,
          translated_text := some (pt ++ pauseTag diff ++ ct) } rest
      | _, _ => Except.error "KeyError: translated_text"
    else
      (concatGo t current rest).map (fun l => previous1 :: l)

/-- The function `concat_close_transcripts(transcripts, threshold)` from
`src/custom_dubber/utils.py` lines 66-98 (the source's default
`threshold=2.0` is passed explicitly here; `main.py` line 103 calls it
with `threshold=3.5`). -/
def concat_close_transcripts (transcripts : List Segment) (threshold : ℚ) :
    Except String (List Segment) :=
  match transcripts with
  | [] => Except.ok []
  | first :: rest => concatGo threshold first rest

/-- Substring test on character lists (used to state facts about the
pause annotation): `hasSub sub l` is true iff `sub` occurs contiguously
in `l`. -/
def hasSub (sub : List Char) : List Char → Bool
  | [] => sub.isEmpty
  | c :: rest => (List.take sub.length (c :: rest) == sub) || hasSub sub rest

/-- Store/index model of the same loop, tracking Python object identity:
the input list is a store of mutable records, `openIdx` is the index of
the record currently aliased by `concatenated[-1]`, and the returned
`List ℕ` lists (in order) the indices of the records that make up the
returned Python list.  Mutations (`previous["start"] = ...`,
`previous["end"] = ...`, `+=` on the texts) become `List.set` at
`openIdx`. -/
def concatRefsGo (t : ℚ) : List Segment → ℕ → List ℕ → Except String (List ℕ × List Segment)
  | store, openIdx, [] => Except.ok ([openIdx], store)
  | store, openIdx, i :: rest =>
    let previous := store.getD openIdx default
    let current := store.getD i default
    let diff := current.start - previous.end_
    let nudge : Bool := numWords previous.text < 3 || numWords current.text < 3
    let previous1 := if nudge then { previous with start := previous.start + t } else previous
    let store1 := if nudge then store.set openIdx previous1 else store
    let factor : ℚ := if nudge then 2 else 1
    if diff ≤ t * factor ∧ current.end_ - previous1.start ≤ max_duration then
      match previous1.translated_text, current.translated_text with
      | some pt, some ct =>
        concatRefsGo t (store1.set openIdx { previous1 with
          end_ := current.end_,
          text := previous1.text ++ pauseTag diff ++ current.text,
          translated_text := some (pt ++ pauseTag diff ++ ct) }) openIdx rest
      | _, _ => Except.error "KeyError: translated_text"
    else
      (concatRefsGo t store1 i rest).map (fun p => (openIdx :: p.1, p.2))

/-- The function `concat_close_transcripts` in the store/index model: on a non-empty
input the open segment starts as record 0 and the loop walks records
1, ..., n-1.  Returns the indices of the records the Python function
returns, together with the final state of the caller's records. -/
def concat_refs (store : List Segment) (threshold : ℚ) :
    Except String (List ℕ × List Segment) :=
  match store with
  | [] => Except.ok ([], [])
  | _ :: _ => concatRefsGo threshold store 0 (List.range' 1 (store.length - 1))

/-- A segment as seen by the Timed Audio Assembler: original caption
start time, measured duration of the synthesized clip file, and the
`for_dubbing` eligibility flag. -/
structure DubSegment where
  start : ℚ
  clip_duration : ℚ
  for_dubbing : Bool
deriving DecidableEq, Inhabited

/-- Modelled from the spec: `audio_processing.insert_audio_at_timestamps`
is called from `src/custom_dubber/main.py` line 166 but the module
`custom_dubber/audio_processing.py` is not present in `src/`; the
placement loop is taken from spec §4.2, Contract 1: clips with
`for_dubbing = true` are placed, in order, at
`max(segment.start, previous_placement_end)`, and
`previous_placement_end` is then `placement_start + clip_duration`;
other segments contribute nothing.  Returns the list of
`(placement_start, clip_duration)` pairs of the placed clips. -/
def placeClips (prevEnd : ℚ) : List DubSegment → List (ℚ × ℚ)
  | [] => []
  | seg :: rest =>
    if seg.for_dubbing then
      let ps := max seg.start prevEnd
      (ps, seg.clip_duration) :: placeClips (ps + seg.clip_duration) rest
    else
      placeClips prevEnd rest

/-- Modelled from the spec: the placement schedule of
`insert_audio_at_timestamps`, starting with `previous_placement_end = 0`
(the beginning of the timeline of background-length silence). -/
def insert_audio_at_timestamps (segs : List DubSegment) : List (ℚ × ℚ) :=
  placeClips 0 segs

/-- Scanner for `countBreak`: `skip` is the number of characters still to
be consumed inside an occurrence already counted (the marker is 7
characters long; after counting one at position `i` the scan resumes at
`i + 7`, exactly as Python's non-overlapping `str.count` does). -/
def countBreakAux : List Char → ℕ → ℕ
  | [], _ => 0
  | _ :: rest, skip + 1 => countBreakAux rest skip
  | c :: rest, 0 =>
    if List.take 7 (c :: rest) = "<break>".data then 1 + countBreakAux rest 6
    else countBreakAux rest 0

/-- Models Python `s.count("<break>")`: number of non-overlapping
occurrences of the break marker, scanning left to right. -/
def countBreak (l : List Char) : ℕ := countBreakAux l 0

/-- The model argument passed to the recursive retry call in
`TranslationGemini._translate_text` (`translation_gemini.py` lines
70-77): `"gemini-2.5-flash"` if the current call used
`"gemini-2.5-flash-lite"`, else `"gemini-2.5-flash-lite"` if the current
call used the default (`model is None`), else `None` (back to the
default `"gemini-2.0-flash"`). -/
def nextModel (m : Option String) : Option String :=
  if m = some "gemini-2.5-flash-lite" then some "gemini-2.5-flash"
  else if m = none then some "gemini-2.5-flash-lite"
  else none

/-- The underlying model actually used for a call with model argument
`m`: `model or self.model` with `self.model = "gemini-2.0-flash"`. -/
def modelUsed (m : Option String) : String :=
  m.getD "gemini-2.0-flash"

/-- The break-marker retry loop of `TranslationGemini._translate_text`
(`translation_gemini.py` lines 53-78), on its no-exception path: the
remote responses are an oracle, one string per successive attempt (the
finite list cuts off the otherwise unbounded recursion; `none` means no
attempt in the budget had a matching marker count).  A response whose
`"<break>"` count equals the input's is returned; otherwise the call
retries with `nextModel`. -/
def translate_text_run (text : String) (m : Option String) :
    List String → Option String
  | [] => none
  | r :: rest =>
    if countBreak r.data = countBreak text.data then some r
    else translate_text_run text (nextModel m) rest

/-! ## Helper lemmas -/

/-- Appending characters on the right can only create words, never destroy
the ones already counted. -/
lemma wordCount_le_append (l1 l2 : List Char) (b : Bool) :
    wordCount l1 b ≤ wordCount (l1 ++ l2) b := by
  induction l1 generalizing b with
  | nil => simp [wordCount]
  | cons c rest ih =>
    by_cases h : c.isWhitespace
    · simpa [wordCount, h] using ih false
    · simpa [wordCount, h] using ih true

/-- Word count of a string does not decrease when more text is appended. -/
lemma numWords_le_append (a b : String) : numWords a ≤ numWords (a ++ b) := by
  simpa [numWords, String.data_append] using wordCount_le_append a.data b.data false

/-- Unfolding of the loop body of `concatGo` on a cons cell when both
texts have at least 3 words: no start nudge happens and the threshold
factor is 1. -/
lemma concatGo_cons_of_words (t : ℚ) {p c : Segment} (rest : List Segment)
    (hp : 3 ≤ numWords p.text) (hc : 3 ≤ numWords c.text) :
    concatGo t p (c :: rest) =
      if c.start - p.end_ ≤ t ∧ c.end_ - p.start ≤ max_duration then
        match p.translated_text, c.translated_text with
        | some pt, some ct =>
          concatGo t { p with
            end_ := c.end_,
            text := p.text ++ pauseTag (c.start - p.end_) ++ c.text,
            translated_text := some (pt ++ pauseTag (c.start - p.end_) ++ ct) } rest
        | _, _ => Except.error "KeyError: translated_text"
      else (concatGo t c rest).map (fun l => p :: l) := by
  have h1 : ¬ numWords p.text < 3 := Nat.not_lt.mpr hp
  have h2 : ¬ numWords c.text < 3 := Nat.not_lt.mpr hc
  simp only [concatGo, h1, h2, decide_False, Bool.or_self, Bool.false_eq_true, if_false,
    mul_one, ite_false]

/-- Unfolding of the loop body of `concatGo` on a cons cell when one of
the two texts has fewer than 3 words: the open segment's start is nudged
forward by the threshold and the effective threshold is doubled. -/
lemma concatGo_cons_of_short (t : ℚ) {p c : Segment} (rest : List Segment)
    (h : numWords p.text < 3 ∨ numWords c.text < 3) :
    concatGo t p (c :: rest) =
      if c.start - p.end_ ≤ t * 2 ∧ c.end_ - (p.start + t) ≤ max_duration then
        match p.translated_text, c.translated_text with
        | some pt, some ct =>
          concatGo t { p with
            start := p.start + t,
            end_ := c.end_,
            text := p.text ++ pauseTag (c.start - p.end_) ++ c.text,
            translated_text := some (pt ++ pauseTag (c.start - p.end_) ++ ct) } rest
        | _, _ => Except.error "KeyError: translated_text"
      else (concatGo t c rest).map (fun l => { p with start := p.start + t } :: l) := by
  have hb : (decide (numWords p.text < 3) || decide (numWords c.text < 3)) = true := by
    rcases h with h | h <;> simp [h]
  simp only [concatGo, hb, if_true, ite_true]

/-- Invariant engine for the end-≥-start property: with every text at
least 3 words long (so the start nudge never fires) and non-decreasing
fragment starts, every segment the loop emits satisfies `start ≤ end`. -/
lemma concatGo_end_ge_start (t : ℚ) :
    ∀ (rest : List Segment) (p : Segment) (out : List Segment),
      p.start ≤ p.end_ → 3 ≤ numWords p.text →
      (∀ s ∈ rest, s.start ≤ s.end_) →
      (∀ s ∈ rest, 3 ≤ numWords s.text) →
      (∀ s ∈ rest, p.start ≤ s.start) →
      List.Pairwise (fun a b => a.start ≤ b.start) rest →
      concatGo t p rest = Except.ok out →
      ∀ s ∈ out, s.start ≤ s.end_ := by
  intro rest
  induction rest with
  | nil =>
    intro p out hps hpw _ _ _ _ heq s hs
    simp only [concatGo, Except.ok.injEq] at heq
    subst heq
    rw [List.mem_singleton.mp hs]
    exact hps
  | cons c rest' ih =>
    intro p out hps hpw hse hsw hstarts hpair heq s hs
    rw [concatGo_cons_of_words t rest' hpw (hsw c (by simp))] at heq
    by_cases hcond : c.start - p.end_ ≤ t ∧ c.end_ - p.start ≤ max_duration
    · rw [if_pos hcond] at heq
      rcases hpt : p.translated_text with _ | pt <;>
        rcases hct : c.translated_text with _ | ct <;>
          simp only [hpt, hct] at heq
      · exact absurd heq (by simp)
      · exact absurd heq (by simp)
      · exact absurd heq (by simp)
      · refine ih _ out ?_ ?_ ?_ ?_ ?_ ?_ heq s hs
        · exact le_trans (hstarts c (by simp)) (hse c (by simp))
        · exact le_trans hpw (le_trans (numWords_le_append p.text _)
            (numWords_le_append _ c.text))
        · exact fun s' hs' => hse s' (by simp [hs'])
        · exact fun s' hs' => hsw s' (by simp [hs'])
        · exact fun s' hs' => hstarts s' (by simp [hs'])
        · exact hpair.sublist (List.sublist_cons_self c rest')
    · rw [if_neg hcond] at heq
      rcases hrec : concatGo t c rest' with e | l'
      · rw [hrec] at heq; simp [Except.map] at heq
      · rw [hrec] at heq
        simp only [Except.map, Except.ok.injEq] at heq
        subst heq
        rcases List.mem_cons.mp hs with hsp | hsl
        · subst hsp; exact hps
        · exact ih c l' (hse c (by simp)) (hsw c (by simp))
            (fun s' hs' => hse s' (by simp [hs']))
            (fun s' hs' => hsw s' (by simp [hs']))
            (fun s' hs' => (List.pairwise_cons.mp hpair).1 s' hs')
            (List.pairwise_cons.mp hpair).2
            hrec s hsl

/-! ## Claim C1 -/

/-- Claim C1, counterexample: the claim "for every input whose fragments
all have `end >= start`, every merged segment has `end >= start`" is
false.  On the input `[{0, 2, "hi"}, {10, 11, "a"}]` (both fragments well
formed, both texts shorter than 3 words) with threshold 3.5, the filler
nudge moves the open segment's start to 3.5 before the merge condition
fails, and the segment `{start: 3.5, end: 2}` is emitted with
`end < start`. -/
theorem C1_counterexample :
    (0 : ℚ) ≤ 2 ∧ (10 : ℚ) ≤ 11 ∧
    concat_close_transcripts
        [⟨0, 2, "hi", some "hi"⟩, ⟨10, 11, "a", some "a"⟩] (7/2) =
      Except.ok [⟨7/2, 2, "hi", some "hi"⟩, ⟨10, 11, "a", some "a"⟩] ∧
    (2 : ℚ) < 7/2 := by
  refine ⟨by norm_num, by norm_num, ?_, by norm_num⟩
  show concatGo (7/2) ⟨0, 2, "hi", some "hi"⟩ [⟨10, 11, "a", some "a"⟩] = _
  rw [concatGo_cons_of_short (7/2) [] (Or.inl (by decide))]
  rw [if_neg (by norm_num [max_duration])]
  norm_num [concatGo, Except.map]

/-- Claim C1, amended: if additionally the fragment starts are
non-decreasing and every fragment's text has at least 3
whitespace-separated words (so the filler start-nudge of
`utils.py` line 78 never fires), then every segment returned by
`concat_close_transcripts` has `end >= start`. -/
theorem C1_theorem (ts : List Segment) (t : ℚ) (out : List Segment)
    (hwf : ∀ s ∈ ts, s.start ≤ s.end_)
    (hsorted : List.Pairwise (fun a b => a.start ≤ b.start) ts)
    (hwords : ∀ s ∈ ts, 3 ≤ numWords s.text)
    (hok : concat_close_transcripts ts t = Except.ok out) :
    ∀ s ∈ out, s.start ≤ s.end_ := by
  match ts, hok with
  | [], hok =>
    simp only [concat_close_transcripts, Except.ok.injEq] at hok
    subst hok; simp
  | first :: rest, hok =>
    exact concatGo_end_ge_start t rest first out
      (hwf first (by simp)) (hwords first (by simp))
      (fun s hs => hwf s (by simp [hs]))
      (fun s hs => hwords s (by simp [hs]))
      (fun s hs => (List.pairwise_cons.mp hsorted).1 s hs)
      (List.pairwise_cons.mp hsorted).2
      hok

/-- Claim C1, witness: the amended theorem applied to the concrete
well-formed sorted input `[{0, 1, "a b c"}, {2, 3, "d e f"}]` with
threshold 2, whose two fragments merge into `{0, 3, ...}`. -/
theorem C1_witness :
    (⟨0, 3, "a b c" ++ pauseTag 1 ++ "d e f", some ("x" ++ pauseTag 1 ++ "y")⟩ : Segment).start ≤
      (⟨0, 3, "a b c" ++ pauseTag 1 ++ "d e f", some ("x" ++ pauseTag 1 ++ "y")⟩ : Segment).end_ :=
  C1_theorem [⟨0, 1, "a b c", some "x"⟩, ⟨2, 3, "d e f", some "y"⟩] 2
    [⟨0, 3, "a b c" ++ pauseTag 1 ++ "d e f", some ("x" ++ pauseTag 1 ++ "y")⟩]
    (by intro s hs; fin_cases hs <;> norm_num)
    (by
      refine List.pairwise_cons.mpr ⟨?_, by simp⟩
      intro s hs; fin_cases hs; norm_num)
    (by intro s hs; fin_cases hs <;> decide)
    (by
      show concatGo 2 ⟨0, 1, "a b c", some "x"⟩ [⟨2, 3, "d e f", some "y"⟩] = _
      rw [concatGo_cons_of_words 2 [] (by decide) (by decide)]
      rw [if_pos (by constructor <;> norm_num [max_duration])]
      norm_num [concatGo])
    _ (by simp)

/-! ## Claim C2 -/

/-- Span engine: when no text is shorter than 3 words (so the start
nudge never fires), the first emitted segment keeps the open segment's
start, and the last emitted segment carries the last fragment's end. -/
lemma concatGo_span (t : ℚ) :
    ∀ (rest : List Segment) (p : Segment) (out : List Segment),
      3 ≤ numWords p.text →
      (∀ s ∈ rest, 3 ≤ numWords s.text) →
      concatGo t p rest = Except.ok out →
      out.head?.map (fun s => s.start) = some p.start ∧
        out.getLast?.map (fun s => s.end_) =
          ((p :: rest).getLast?).map (fun s => s.end_) := by
  intro rest
  induction rest with
  | nil =>
    intro p out _ _ heq
    simp only [concatGo, Except.ok.injEq] at heq
    subst heq
    simp
  | cons c rest' ih =>
    intro p out hpw hw heq
    rw [concatGo_cons_of_words t rest' hpw (hw c (by simp))] at heq
    by_cases hcond : c.start - p.end_ ≤ t ∧ c.end_ - p.start ≤ max_duration
    · rw [if_pos hcond] at heq
      rcases hpt : p.translated_text with _ | pt <;>
        rcases hct : c.translated_text with _ | ct <;>
          simp only [hpt, hct] at heq
      · exact absurd heq (by simp)
      · exact absurd heq (by simp)
      · exact absurd heq (by simp)
      · obtain ⟨hhead, hlast⟩ := ih _ out
          (le_trans hpw (le_trans (numWords_le_append p.text _)
            (numWords_le_append _ c.text)))
          (fun s hs' => hw s (by simp [hs'])) heq
        refine ⟨hhead, hlast.trans ?_⟩
        cases rest' with
        | nil => simp [List.getLast?_cons_cons]
        | cons x xs => simp [List.getLast?_cons_cons]
    · rw [if_neg hcond] at heq
      rcases hrec : concatGo t c rest' with e | l'
      · rw [hrec] at heq; simp [Except.map] at heq
      · rw [hrec] at heq
        simp only [Except.map, Except.ok.injEq] at heq
        subst heq
        obtain ⟨hhead', hlast'⟩ := ih c l' (hw c (by simp))
          (fun s hs' => hw s (by simp [hs'])) hrec
        refine ⟨by simp, ?_⟩
        cases l' with
        | nil => simp at hhead'
        | cons y ys =>
          rw [List.getLast?_cons_cons, List.getLast?_cons_cons]
          exact hlast'

/-- Claim C2, counterexample: the claim "the first output segment's
start equals the first input fragment's start" is false.  On
`[{0, 2, "hi"}, {10, 11, "a"}]` with threshold 3.5 the filler nudge
rewrites the open segment's start to 3.5 even though the merge is then
rejected, so the first output segment starts at 3.5, not 0. -/
theorem C2_counterexample :
    concat_close_transcripts
        [⟨0, 2, "hi", some "hi"⟩, ⟨10, 11, "a", some "a"⟩] (7/2) =
      Except.ok [⟨7/2, 2, "hi", some "hi"⟩, ⟨10, 11, "a", some "a"⟩] ∧
    (7/2 : ℚ) ≠ 0 := by
  refine ⟨?_, by norm_num⟩
  show concatGo (7/2) ⟨0, 2, "hi", some "hi"⟩ [⟨10, 11, "a", some "a"⟩] = _
  rw [concatGo_cons_of_short (7/2) [] (Or.inl (by decide))]
  rw [if_neg (by norm_num [max_duration])]
  norm_num [concatGo, Except.map]

/-- Claim C2, amended: for every non-empty fragment sequence in which
every fragment's text has at least 3 whitespace-separated words (so the
filler start-nudge never fires), the merged sequence covers the same
total span as the input: the first output segment's start equals the
first input fragment's start and the last output segment's end equals
the last input fragment's end.  (The last-end half needs no word
hypothesis, but the first-start half does, as the counterexample
shows.) -/
theorem C2_theorem (ts : List Segment) (t : ℚ) (out : List Segment)
    (hne : ts ≠ [])
    (hwords : ∀ s ∈ ts, 3 ≤ numWords s.text)
    (hok : concat_close_transcripts ts t = Except.ok out) :
    out.head?.map (fun s => s.start) = ts.head?.map (fun s => s.start) ∧
    out.getLast?.map (fun s => s.end_) = ts.getLast?.map (fun s => s.end_) := by
  match ts, hne, hok with
  | first :: rest, _, hok =>
    obtain ⟨hhead, hlast⟩ := concatGo_span t rest first out
      (hwords first (by simp)) (fun s hs => hwords s (by simp [hs])) hok
    exact ⟨by simpa using hhead, hlast⟩

/-- Claim C2, witness: the amended theorem applied to
`[{1, 2, "p q r"}, {4, 5, "s t u"}]` with threshold 3, which merges into
the single segment `{1, 5, ...}`: first start 1 and last end 5 are
preserved. -/
theorem C2_witness :
    ([⟨1, 5, "p q r" ++ pauseTag 2 ++ "s t u", some ("u" ++ pauseTag 2 ++ "v")⟩] :
        List Segment).head?.map (fun s => s.start) =
      ([⟨1, 2, "p q r", some "u"⟩, ⟨4, 5, "s t u", some "v"⟩] :
        List Segment).head?.map (fun s => s.start) ∧
    ([⟨1, 5, "p q r" ++ pauseTag 2 ++ "s t u", some ("u" ++ pauseTag 2 ++ "v")⟩] :
        List Segment).getLast?.map (fun s => s.end_) =
      ([⟨1, 2, "p q r", some "u"⟩, ⟨4, 5, "s t u", some "v"⟩] :
        List Segment).getLast?.map (fun s => s.end_) :=
  C2_theorem [⟨1, 2, "p q r", some "u"⟩, ⟨4, 5, "s t u", some "v"⟩] 3
    [⟨1, 5, "p q r" ++ pauseTag 2 ++ "s t u", some ("u" ++ pauseTag 2 ++ "v")⟩]
    (by simp)
    (by intro s hs; fin_cases hs <;> decide)
    (by
      show concatGo 3 ⟨1, 2, "p q r", some "u"⟩ [⟨4, 5, "s t u", some "v"⟩] = _
      rw [concatGo_cons_of_words 3 [] (by decide) (by decide)]
      rw [if_pos (by constructor <;> norm_num [max_duration])]
      norm_num [concatGo])

/-! ## Claim C3 -/

/-- Fixpoint engine: a list in which every text has at least 3 words and
no adjacent pair satisfies the merge condition is returned unchanged by
the merging loop. -/
lemma concatGo_fix (t : ℚ) :
    ∀ (rest : List Segment) (p : Segment),
      3 ≤ numWords p.text →
      (∀ s ∈ rest, 3 ≤ numWords s.text) →
      List.Chain'
        (fun a b => ¬(b.start - a.end_ ≤ t ∧ b.end_ - a.start ≤ max_duration))
        (p :: rest) →
      concatGo t p rest = Except.ok (p :: rest) := by
  intro rest
  induction rest with
  | nil =>
    intro p _ _ _
    simp [concatGo]
  | cons c rest' ih =>
    intro p hpw hw hchain
    rw [concatGo_cons_of_words t rest' hpw (hw c (by simp))]
    rw [if_neg (List.chain'_cons.mp hchain).1]
    rw [ih c (hw c (by simp)) (fun s hs => hw s (by simp [hs]))
      (List.chain'_cons.mp hchain).2]
    simp [Except.map]

/-- Claim C3, counterexample: idempotence fails even though no two
adjacent segments of the first pass's output satisfy the merge condition
(neither with the plain threshold nor with the nudged start and doubled
threshold).  First pass on `[{0, 2, "hi"}, {10, 11, "a"}]` with
threshold 3.5 yields `[{3.5, 2, "hi"}, {10, 11, "a"}]`; the second pass
nudges the first segment's start again and returns
`[{7, 2, "hi"}, {10, 11, "a"}]`, a different list. -/
theorem C3_counterexample :
    concat_close_transcripts
        [⟨0, 2, "hi", some "hi"⟩, ⟨10, 11, "a", some "a"⟩] (7/2) =
      Except.ok [⟨7/2, 2, "hi", some "hi"⟩, ⟨10, 11, "a", some "a"⟩] ∧
    ¬((10 : ℚ) - 2 ≤ 7/2 ∧ (11 : ℚ) - 7/2 ≤ max_duration) ∧
    ¬((10 : ℚ) - 2 ≤ 7/2 * 2 ∧ (11 : ℚ) - (7/2 + 7/2) ≤ max_duration) ∧
    concat_close_transcripts
        [⟨7/2, 2, "hi", some "hi"⟩, ⟨10, 11, "a", some "a"⟩] (7/2) =
      Except.ok [⟨7, 2, "hi", some "hi"⟩, ⟨10, 11, "a", some "a"⟩] ∧
    ([⟨7, 2, "hi", some "hi"⟩, ⟨10, 11, "a", some "a"⟩] : List Segment) ≠
      [⟨7/2, 2, "hi", some "hi"⟩, ⟨10, 11, "a", some "a"⟩] := by
  refine ⟨?_, by norm_num [max_duration], by norm_num [max_duration], ?_, by norm_num⟩
  · show concatGo (7/2) ⟨0, 2, "hi", some "hi"⟩ [⟨10, 11, "a", some "a"⟩] = _
    rw [concatGo_cons_of_short (7/2) [] (Or.inl (by decide))]
    rw [if_neg (by norm_num [max_duration])]
    norm_num [concatGo, Except.map]
  · show concatGo (7/2) ⟨7/2, 2, "hi", some "hi"⟩ [⟨10, 11, "a", some "a"⟩] = _
    rw [concatGo_cons_of_short (7/2) [] (Or.inl (by decide))]
    rw [if_neg (by norm_num [max_duration])]
    norm_num [concatGo, Except.map]

/-- Claim C3, amended: merging is idempotent on its own output with the
same threshold — `merge(merge(X)) = merge(X)` — once no two adjacent
segments of the first pass's output satisfy the merge condition and,
additionally, every output segment's text has at least 3
whitespace-separated words (otherwise the second pass's filler nudge
still rewrites starts, as the counterexample shows). -/
theorem C3_theorem (ts l : List Segment) (t : ℚ)
    (hfirst : concat_close_transcripts ts t = Except.ok l)
    (hwords : ∀ s ∈ l, 3 ≤ numWords s.text)
    (hnomerge : List.Chain'
      (fun a b => ¬(b.start - a.end_ ≤ t ∧ b.end_ - a.start ≤ max_duration)) l) :
    concat_close_transcripts l t = Except.ok l := by
  match l with
  | [] => rfl
  | p :: rest =>
    exact concatGo_fix t rest p (hwords p (by simp))
      (fun s hs => hwords s (by simp [hs])) hnomerge

/-- Claim C3, witness: the amended theorem applied to
`[{0, 1, "a b c"}, {100, 101, "d e f"}]` with threshold 2; the first
pass keeps both segments apart (gap 99), and the second pass returns the
same list. -/
theorem C3_witness :
    concat_close_transcripts
        [⟨0, 1, "a b c", some "x"⟩, ⟨100, 101, "d e f", some "y"⟩] 2 =
      Except.ok [⟨0, 1, "a b c", some "x"⟩, ⟨100, 101, "d e f", some "y"⟩] :=
  C3_theorem [⟨0, 1, "a b c", some "x"⟩, ⟨100, 101, "d e f", some "y"⟩]
    [⟨0, 1, "a b c", some "x"⟩, ⟨100, 101, "d e f", some "y"⟩] 2
    (by
      show concatGo 2 ⟨0, 1, "a b c", some "x"⟩ [⟨100, 101, "d e f", some "y"⟩] = _
      rw [concatGo_cons_of_words 2 [] (by decide) (by decide)]
      rw [if_neg (by norm_num [max_duration])]
      norm_num [concatGo, Except.map])
    (by intro s hs; fin_cases hs <;> decide)
    (by
      rw [List.chain'_cons]
      exact ⟨by norm_num [max_duration], List.chain'_singleton _⟩)

/-! ## Claim C4 -/

/-- The first clip placed by `placeClips` never starts before the running
`previous_placement_end`. -/
lemma placeClips_head_le :
    ∀ (segs : List DubSegment) (prevEnd : ℚ) (q : ℚ × ℚ),
      (placeClips prevEnd segs).head? = some q → prevEnd ≤ q.1 := by
  intro segs
  induction segs with
  | nil => intro prevEnd q h; simp [placeClips] at h
  | cons seg rest ih =>
    intro prevEnd q h
    by_cases hd : seg.for_dubbing
    · simp only [placeClips, hd, if_true, List.head?_cons, Option.some.injEq] at h
      subst h
      exact le_max_right _ _
    · simp only [placeClips, hd, if_false, Bool.false_eq_true] at h
      exact ih prevEnd q h

/-- Consecutive placements never overlap: each placement starts no
earlier than the previous placement's end. -/
lemma placeClips_chain :
    ∀ (segs : List DubSegment) (prevEnd : ℚ),
      List.Chain' (fun p q => p.1 + p.2 ≤ q.1) (placeClips prevEnd segs) := by
  intro segs
  induction segs with
  | nil => intro prevEnd; simp [placeClips]
  | cons seg rest ih =>
    intro prevEnd
    by_cases hd : seg.for_dubbing
    · simp only [placeClips, hd, if_true]
      rw [List.chain'_cons']
      exact ⟨fun q hq => placeClips_head_le rest _ q hq, ih _⟩
    · simp only [placeClips, hd, if_false, Bool.false_eq_true]
      exact ih prevEnd

/-- Claim C4: the Timed Audio Assembler places each `for_dubbing` clip at
`max(segment.start, previous_placement_end)`, so no two placed clips
overlap: for all consecutive placed clips the next placement starts no
earlier than the previous placement's start plus its clip duration.  On
the spec's own example `[{start 0, duration 3}, {start 2, duration 5}]`
the second clip is pushed to 3.  (The placement model is built from spec
§4.2 because `custom_dubber/audio_processing.py` is not in `src/`.) -/
theorem C4_theorem :
    (∀ segs : List DubSegment,
      List.Chain' (fun p q => p.1 + p.2 ≤ q.1) (insert_audio_at_timestamps segs)) ∧
    insert_audio_at_timestamps [⟨0, 3, true⟩, ⟨2, 5, true⟩] = [(0, 3), (3, 5)] := by
  constructor
  · intro segs
    exact placeClips_chain segs 0
  · norm_num [insert_audio_at_timestamps, placeClips, max_def]

/-! ## Claim C5 -/

/-- For a gap of exactly 1 second the annotation renders the Python
float `1.0`, not the integer `1`. -/
lemma pauseTag_one : pauseTag 1 = "\n (pause for 1.0 seconds). \n" := by
  simp only [pauseTag, pauseNum, Int.floor_one]
  decide

/-- For a gap of 0.1 seconds the int `0` wins `max(0, diff // 1)` and the
annotation renders `0`. -/
lemma pauseTag_tenth : pauseTag (1/10) = "\n (pause for 0 seconds). \n" := by
  have h : ⌊(1/10 : ℚ)⌋ = 0 := by
    rw [Int.floor_eq_zero_iff]
    constructor <;> norm_num
  simp only [pauseTag, pauseNum, h]
  decide

/-- Claim C5, counterexample: for two fragments with gap 1.0 s, both
with at least 3 words, threshold 3.5, the merged text does NOT contain
the claimed annotation "(pause for 1 seconds)"; it contains
"(pause for 1.0 seconds)" instead (Python renders the float
`max(0, 1.0 // 1) = 1.0` as `1.0`). -/
theorem C5_counterexample :
    concat_close_transcripts
        [⟨0, 2, "hello there my friend", some "hola amigo mio aqui"⟩,
         ⟨3, 4, "nice to see you", some "que tal verte bien"⟩] (7/2) =
      Except.ok [⟨0, 4,
        "hello there my friend\n (pause for 1.0 seconds). \nnice to see you",
        some "hola amigo mio aqui\n (pause for 1.0 seconds). \nque tal verte bien"⟩] ∧
    hasSub "(pause for 1 seconds)".data
      "hello there my friend\n (pause for 1.0 seconds). \nnice to see you".data = false ∧
    hasSub "(pause for 1.0 seconds)".data
      "hello there my friend\n (pause for 1.0 seconds). \nnice to see you".data = true := by
  refine ⟨?_, by decide, by decide⟩
  show concatGo (7/2)
    ⟨0, 2, "hello there my friend", some "hola amigo mio aqui"⟩
    [⟨3, 4, "nice to see you", some "que tal verte bien"⟩] = _
  rw [concatGo_cons_of_words (7/2) [] (by decide) (by decide)]
  rw [if_pos (by constructor <;> norm_num [max_duration])]
  rw [show (3 : ℚ) - 2 = 1 by norm_num, pauseTag_one]
  simp only [concatGo]
  decide

/-- Claim C5, amended: when the Merger merges a fragment into the open
segment (both texts at least 3 words, so no nudge; both translated
texts present; merge condition satisfied), it appends to both `text`
and `translated_text` the annotation
`"\n (pause for K seconds). \n"` where `K` is Python's rendering of
`max(0, floor(gap))`: the digits of `floor(gap)` followed by `".0"`
when `floor(gap) >= 1`, and `"0"` otherwise — not the plain integer
the claim states. -/
theorem C5_theorem (t : ℚ) (p c : Segment) (pt ct : String)
    (hpw : 3 ≤ numWords p.text) (hcw : 3 ≤ numWords c.text)
    (hpt : p.translated_text = some pt) (hct : c.translated_text = some ct)
    (h1 : c.start - p.end_ ≤ t) (h2 : c.end_ - p.start ≤ max_duration) :
    concat_close_transcripts [p, c] t =
      Except.ok [{ p with
        end_ := c.end_,
        text := p.text ++ ("\n (pause for " ++
          (if 0 < ⌊c.start - p.end_⌋ then toString ⌊c.start - p.end_⌋ ++ ".0" else "0") ++
          " seconds). \n") ++ c.text,
        translated_text := some (pt ++ ("\n (pause for " ++
          (if 0 < ⌊c.start - p.end_⌋ then toString ⌊c.start - p.end_⌋ ++ ".0" else "0") ++
          " seconds). \n") ++ ct) }] := by
  show concatGo t p [c] = _
  rw [concatGo_cons_of_words t [] hpw hcw]
  rw [if_pos ⟨h1, h2⟩, hpt, hct]
  simp only [concatGo, pauseTag, pauseNum]

/-- Claim C5, witness: the amended theorem applied to two fragments with
gap exactly 1 second and threshold 3.5; the annotation comes out as
"(pause for 1.0 seconds)". -/
theorem C5_witness :
    concat_close_transcripts
        [⟨10, 12, "one two three four", some "eins zwei drei"⟩,
         ⟨13, 14, "five six seven", some "vier funf sechs"⟩] (7/2) =
      Except.ok [⟨10, 14,
        "one two three four\n (pause for 1.0 seconds). \nfive six seven",
        some "eins zwei drei\n (pause for 1.0 seconds). \nvier funf sechs"⟩] :=
  (C5_theorem (7/2)
      ⟨10, 12, "one two three four", some "eins zwei drei"⟩
      ⟨13, 14, "five six seven", some "vier funf sechs"⟩
      "eins zwei drei" "vier funf sechs"
      (by decide) (by decide) rfl rfl (by norm_num) (by norm_num [max_duration])).trans
    (by
      rw [show (13 : ℚ) - 12 = 1 by norm_num, Int.floor_one]
      decide)

/-! ## Claim C6 -/

/-- Claim C6, counterexample: the claim's literal example
`[{start 0, end 2, text "hi"}, {start 2.1, end 3, text "a"}]` carries no
`translated_text` field; when the merge fires, line 91 of `utils.py`
(`previous["translated_text"] += ...`) raises `KeyError`, so the
sequence is not merged into a single segment — the call fails. -/
theorem C6_counterexample :
    concat_close_transcripts [⟨0, 2, "hi", none⟩, ⟨21/10, 3, "a", none⟩] (7/2) =
      Except.error "KeyError: translated_text" := by
  show concatGo (7/2) ⟨0, 2, "hi", none⟩ [⟨21/10, 3, "a", none⟩] = _
  rw [concatGo_cons_of_short (7/2) [] (Or.inl (by decide))]
  rw [if_pos (by constructor <;> norm_num [max_duration])]

/-- Claim C6, amended: when either text has fewer than 3
whitespace-separated words, the Merger adds the threshold to the open
segment's start and doubles the effective gap threshold for that
comparison (first conjunct: the full characterization of the two-fragment
case, assuming both fragments carry `translated_text` — otherwise the
call raises `KeyError`, see the counterexample); consequently the
claim's example, once given translated texts, is merged into a single
segment whose start was pulled forward to 3.5 (second conjunct). -/
theorem C6_theorem :
    (∀ (t : ℚ) (p c : Segment) (pt ct : String),
      numWords p.text < 3 ∨ numWords c.text < 3 →
      p.translated_text = some pt → c.translated_text = some ct →
      concat_close_transcripts [p, c] t =
        if c.start - p.end_ ≤ t * 2 ∧ c.end_ - (p.start + t) ≤ max_duration then
          Except.ok [{ p with
            start := p.start + t,
            end_ := c.end_,
            text := p.text ++ pauseTag (c.start - p.end_) ++ c.text,
            translated_text := some (pt ++ pauseTag (c.start - p.end_) ++ ct) }]
        else Except.ok [{ p with start := p.start + t }, c]) ∧
    concat_close_transcripts
        [⟨0, 2, "hi", some "hi"⟩, ⟨21/10, 3, "a", some "a"⟩] (7/2) =
      Except.ok [⟨7/2, 3, "hi\n (pause for 0 seconds). \na",
        some "hi\n (pause for 0 seconds). \na"⟩] := by
  constructor
  · intro t p c pt ct h hpt hct
    show concatGo t p [c] = _
    rw [concatGo_cons_of_short t [] h, hpt, hct]
    by_cases hcond : c.start - p.end_ ≤ t * 2 ∧ c.end_ - (p.start + t) ≤ max_duration
    · rw [if_pos hcond, if_pos hcond]
      simp only [concatGo]
    · rw [if_neg hcond, if_neg hcond]
      simp only [concatGo, Except.map]
  · show concatGo (7/2) ⟨0, 2, "hi", some "hi"⟩ [⟨21/10, 3, "a", some "a"⟩] = _
    rw [concatGo_cons_of_short (7/2) [] (Or.inl (by decide))]
    rw [if_pos (by constructor <;> norm_num [max_duration])]
    rw [show (21/10 : ℚ) - 2 = 1/10 by norm_num, pauseTag_tenth]
    simp only [concatGo]
    norm_num
    decide

/-- Claim C6, witness: the amended characterization applied to the short
fragments `{5, 6, "x y"}` and `{7, 8, "z"}` with threshold 1: the start
is nudged to 6, the doubled threshold admits the gap of 1 second, and
the two fragments merge. -/
theorem C6_witness :
    concat_close_transcripts
        [⟨5, 6, "x y", some "p q"⟩, ⟨7, 8, "z", some "r"⟩] 1 =
      Except.ok [⟨6, 8, "x y\n (pause for 1.0 seconds). \nz",
        some "p q\n (pause for 1.0 seconds). \nr"⟩] :=
  (C6_theorem.1 1 ⟨5, 6, "x y", some "p q"⟩ ⟨7, 8, "z", some "r"⟩ "p q" "r"
      (Or.inl (by decide)) rfl rfl).trans
    (by
      rw [if_pos (by constructor <;> norm_num [max_duration])]
      rw [show (7 : ℚ) - 6 = 1 by norm_num, pauseTag_one]
      norm_num
      decide)

/-! ## Claim C7 -/

/-- Claim C7, counterexample: on an input containing a fragment with
`end < start` the Merger does not fail — there is no validation and no
`InvalidSegment` anywhere in the code — it returns the malformed
fragment in an ordinary output sequence. -/
theorem C7_counterexample :
    (1 : ℚ) < 5 ∧
    concat_close_transcripts [⟨5, 1, "hello there friend", some "x"⟩] 2 =
      Except.ok [⟨5, 1, "hello there friend", some "x"⟩] :=
  ⟨by norm_num, rfl⟩

/-- Claim C7, amended: the Merger performs no validation at all — a
fragment with `end < start` is processed like any other and an output
sequence is produced (shown here for a singleton input, which is
returned unchanged). -/
theorem C7_theorem (s : Segment) (t : ℚ) (_hmal : s.end_ < s.start) :
    concat_close_transcripts [s] t = Except.ok [s] := rfl

/-- Claim C7, witness: the amended theorem applied to the malformed
fragment `{start 5, end 1}`. -/
theorem C7_witness :
    concat_close_transcripts [⟨5, 1, "oops bad times", none⟩] 3 =
      Except.ok [⟨5, 1, "oops bad times", none⟩] :=
  C7_theorem ⟨5, 1, "oops bad times", none⟩ 3 (by norm_num)

/-! ## Claim C8 -/

/-- Claim C8, counterexample: two fragments without `translated_text`
that satisfy the merge condition do NOT merge with the pause annotation
skipped — the unconditional `previous["translated_text"] += ...` on line
91 of `utils.py` raises `KeyError` and the Merger fails. -/
theorem C8_counterexample :
    concat_close_transcripts [⟨0, 1, "a b c", none⟩, ⟨3/2, 2, "d e f", none⟩] 2 =
      Except.error "KeyError: translated_text" := by
  show concatGo 2 ⟨0, 1, "a b c", none⟩ [⟨3/2, 2, "d e f", none⟩] = _
  rw [concatGo_cons_of_words 2 [] (by decide) (by decide)]
  rw [if_pos (by constructor <;> norm_num [max_duration])]

/-- Claim C8, amended: the pause-annotation append to `translated_text`
is not skipped when the field is unset; whenever the merge condition
holds for a pair in which either segment lacks `translated_text`, the
Merger raises `KeyError` instead of producing an output.  (A fragment
without `translated_text` survives only if it is never merged.) -/
theorem C8_theorem (t : ℚ) (p c : Segment) (rest : List Segment)
    (hpw : 3 ≤ numWords p.text) (hcw : 3 ≤ numWords c.text)
    (h1 : c.start - p.end_ ≤ t) (h2 : c.end_ - p.start ≤ max_duration)
    (hmiss : p.translated_text = none ∨ c.translated_text = none) :
    concat_close_transcripts (p :: c :: rest) t =
      Except.error "KeyError: translated_text" := by
  show concatGo t p (c :: rest) = _
  rw [concatGo_cons_of_words t rest hpw hcw]
  rw [if_pos ⟨h1, h2⟩]
  rcases hp : p.translated_text with _ | pt <;> rcases hc : c.translated_text with _ | ct <;>
    simp only [hp, hc]
  rcases hmiss with h | h
  · rw [hp] at h; cases h
  · rw [hc] at h; cases h

/-- Claim C8, witness: the amended theorem applied to a pair in which
only the first fragment lacks `translated_text`; the merge condition
holds and the Merger fails. -/
theorem C8_witness :
    concat_close_transcripts
        [⟨0, 1, "g h i", none⟩, ⟨3/2, 2, "j k l", some "x"⟩] 2 =
      Except.error "KeyError: translated_text" :=
  C8_theorem 2 ⟨0, 1, "g h i", none⟩ ⟨3/2, 2, "j k l", some "x"⟩ []
    (by decide) (by decide) (by norm_num) (by norm_num [max_duration])
    (Or.inl rfl)

/-! ## Claim C9 -/

/-- The retry loop returns the first response in the oracle stream whose
break-marker count matches the input's, independently of how many
retries that takes. -/
lemma translate_text_run_eq_find (tx : String) :
    ∀ (rs : List String) (m : Option String),
      translate_text_run tx m rs =
        rs.find? (fun r => countBreak r.data == countBreak tx.data) := by
  intro rs
  induction rs with
  | nil => intro m; rfl
  | cons r rest ih =>
    intro m
    by_cases h : countBreak r.data = countBreak tx.data
    · simp [translate_text_run, h, List.find?]
    · simp [translate_text_run, h, List.find?, ih, beq_eq_false_iff_ne.mpr h]

/-- Claim C9, counterexample: the claim "exactly one automatic retry,
then fail" is false.  With input `"a<break>b"` (one marker) and remote
responses `"x"`, `"y"`, `"x<break>y"`, the first two attempts both
mismatch, yet the call does not fail: a third attempt runs and its
response is returned. -/
theorem C9_counterexample :
    countBreak ("x" : String).data ≠ countBreak ("a<break>b" : String).data ∧
    countBreak ("y" : String).data ≠ countBreak ("a<break>b" : String).data ∧
    translate_text_run "a<break>b" none ["x", "y", "x<break>y"] =
      some "x<break>y" :=
  ⟨by decide, by decide, by decide⟩

/-- Claim C9, amended: a break-marker-count mismatch triggers an
automatic retry with the next model of the cycle
default (`gemini-2.0-flash`) → `gemini-2.5-flash-lite` →
`gemini-2.5-flash` → default, without bound: the loop returns the first
response whose marker count matches the input's and never fails because
of a mismatch (first conjunct); the remaining conjuncts pin down the
model rotation of `translation_gemini.py` lines 70-77. -/
theorem C9_theorem :
    (∀ (tx : String) (m : Option String) (rs : List String),
      translate_text_run tx m rs =
        rs.find? (fun r => countBreak r.data == countBreak tx.data)) ∧
    nextModel none = some "gemini-2.5-flash-lite" ∧
    nextModel (some "gemini-2.5-flash-lite") = some "gemini-2.5-flash" ∧
    nextModel (some "gemini-2.5-flash") = none ∧
    modelUsed none = "gemini-2.0-flash" :=
  ⟨fun tx m rs => translate_text_run_eq_find tx rs m,
    by decide, by decide, by decide, rfl⟩

/-! ## Claim C10 -/

/-- Reading any index other than the one written is unaffected by
`List.set`. -/
lemma getD_set_ne {α : Type} [Inhabited α] (store : List α) (i k : ℕ) (v : α)
    (h : i ≠ k) : (store.set i v).getD k default = store.getD k default := by
  rw [List.getD_eq_getElem?_getD, List.getD_eq_getElem?_getD, List.getElem?_set_ne h]

/-- Reading the index just written returns the written value (when the
index is in bounds). -/
lemma getD_set_self {α : Type} [Inhabited α] (store : List α) (i : ℕ) (v : α)
    (h : i < store.length) : (store.set i v).getD i default = v := by
  rw [List.getD_eq_getElem?_getD, List.getElem?_set_eq_of_lt _ h]
  rfl

/-- Unfolding of the store/index loop on a cons cell when neither text is
short: the store is untouched unless a merge happens. -/
lemma concatRefsGo_cons_of_words (t : ℚ) (store : List Segment) (openIdx i : ℕ)
    (idxs : List ℕ)
    (hp : 3 ≤ numWords (store.getD openIdx default).text)
    (hc : 3 ≤ numWords (store.getD i default).text) :
    concatRefsGo t store openIdx (i :: idxs) =
      if (store.getD i default).start - (store.getD openIdx default).end_ ≤ t ∧
          (store.getD i default).end_ - (store.getD openIdx default).start ≤ max_duration then
        match (store.getD openIdx default).translated_text,
            (store.getD i default).translated_text with
        | some pt, some ct =>
          concatRefsGo t (store.set openIdx { store.getD openIdx default with
            end_ := (store.getD i default).end_,
            text := (store.getD openIdx default).text ++
              pauseTag ((store.getD i default).start - (store.getD openIdx default).end_) ++
              (store.getD i default).text,
            translated_text := some (pt ++
              pauseTag ((store.getD i default).start - (store.getD openIdx default).end_) ++
              ct) }) openIdx idxs
        | _, _ => Except.error "KeyError: translated_text"
      else (concatRefsGo t store i idxs).map (fun q => (openIdx :: q.1, q.2)) := by
  have h1 : ¬ numWords (store.getD openIdx default).text < 3 := Nat.not_lt.mpr hp
  have h2 : ¬ numWords (store.getD i default).text < 3 := Nat.not_lt.mpr hc
  simp only [concatRefsGo, h1, h2, decide_False, Bool.or_self, Bool.false_eq_true, if_false,
    mul_one, ite_false]

/-- Unfolding of the store/index loop on a cons cell when one text is
short: the nudged open record is written back to the store before the
merge condition is evaluated, whether or not the merge then happens. -/
lemma concatRefsGo_cons_of_short (t : ℚ) (store : List Segment) (openIdx i : ℕ)
    (idxs : List ℕ)
    (h : numWords (store.getD openIdx default).text < 3 ∨
      numWords (store.getD i default).text < 3) :
    concatRefsGo t store openIdx (i :: idxs) =
      if (store.getD i default).start - (store.getD openIdx default).end_ ≤ t * 2 ∧
          (store.getD i default).end_ - ((store.getD openIdx default).start + t) ≤
            max_duration then
        match (store.getD openIdx default).translated_text,
            (store.getD i default).translated_text with
        | some pt, some ct =>
          concatRefsGo t (store.set openIdx { store.getD openIdx default with
            start := (store.getD openIdx default).start + t,
            end_ := (store.getD i default).end_,
            text := (store.getD openIdx default).text ++
              pauseTag ((store.getD i default).start - (store.getD openIdx default).end_) ++
              (store.getD i default).text,
            translated_text := some (pt ++
              pauseTag ((store.getD i default).start - (store.getD openIdx default).end_) ++
              ct) }) openIdx idxs
        | _, _ => Except.error "KeyError: translated_text"
      else (concatRefsGo t
        (store.set openIdx { store.getD openIdx default with
          start := (store.getD openIdx default).start + t }) i idxs).map
          (fun q => (openIdx :: q.1, q.2)) := by
  have hb : (decide (numWords (store.getD openIdx default).text < 3) ||
      decide (numWords (store.getD i default).text < 3)) = true := by
    rcases h with h | h
    · rw [decide_eq_true h, Bool.true_or]
    · rw [decide_eq_true h, Bool.or_true]
  simp only [concatRefsGo, hb, if_true, ite_true, List.set_set]

/-- Correspondence between the store/index model and the pure value
model: both fail with the same error, or the records read from the final
store at the returned indices are exactly the pure result; moreover the
returned indices are a sublist of the walked indices, the store's length
is preserved, and records at indices that were not walked are
untouched. -/
lemma concatRefsGo_spec (t : ℚ) :
    ∀ (idxs : List ℕ) (store : List Segment) (openIdx : ℕ),
      openIdx < store.length →
      (∀ j ∈ idxs, j < store.length) →
      List.Pairwise (fun a b => a < b) (openIdx :: idxs) →
      (∃ e, concatRefsGo t store openIdx idxs = Except.error e ∧
        concatGo t (store.getD openIdx default)
          (idxs.map (fun k => store.getD k default)) = Except.error e) ∨
      (∃ ks st, concatRefsGo t store openIdx idxs = Except.ok (ks, st) ∧
        st.length = store.length ∧
        (∀ k, k ∉ openIdx :: idxs → st.getD k default = store.getD k default) ∧
        ks.Sublist (openIdx :: idxs) ∧
        concatGo t (store.getD openIdx default)
          (idxs.map (fun k => store.getD k default)) =
          Except.ok (ks.map (fun k => st.getD k default))) := by
  intro idxs
  induction idxs with
  | nil =>
    intro store openIdx _ _ _
    right
    exact ⟨[openIdx], store, rfl, rfl, fun k _ => rfl, List.Sublist.refl _, rfl⟩
  | cons i rest ih =>
    intro store openIdx hlen hjs hpair
    have hoi : openIdx < i := (List.pairwise_cons.mp hpair).1 i (by simp)
    have horest : ∀ j ∈ rest, openIdx < j :=
      fun j hj => (List.pairwise_cons.mp hpair).1 j (by simp [hj])
    have hpair' : List.Pairwise (fun a b => a < b) (i :: rest) :=
      (List.pairwise_cons.mp hpair).2
    have hilen : i < store.length := hjs i (by simp)
    have honotin : openIdx ∉ i :: rest := by
      intro hmem
      rcases List.mem_cons.mp hmem with h | h
      · exact absurd h (Nat.ne_of_lt hoi)
      · exact Nat.lt_irrefl _ (horest _ h)
    have hsubl : (openIdx :: rest).Sublist (openIdx :: i :: rest) :=
      List.Sublist.cons₂ openIdx (List.sublist_cons_self i rest)
    by_cases hn : numWords (store.getD openIdx default).text < 3 ∨
        numWords (store.getD i default).text < 3
    · -- short-text case: the nudged open record is written back first
      have hpureStep := concatGo_cons_of_short t
        (rest.map (fun k => store.getD k default))
        (p := store.getD openIdx default) (c := store.getD i default) hn
      by_cases hcond : (store.getD i default).start - (store.getD openIdx default).end_ ≤ t * 2 ∧
          (store.getD i default).end_ - ((store.getD openIdx default).start + t) ≤ max_duration
      · rcases hpt : (store.getD openIdx default).translated_text with _ | pt <;>
          rcases hct : (store.getD i default).translated_text with _ | ct
        · left
          refine ⟨"KeyError: translated_text", ?_, ?_⟩
          · rw [concatRefsGo_cons_of_short t store openIdx i rest hn, if_pos hcond, hpt, hct]
          · rw [List.map_cons, hpureStep, if_pos hcond, hpt, hct]
        · left
          refine ⟨"KeyError: translated_text", ?_, ?_⟩
          · rw [concatRefsGo_cons_of_short t store openIdx i rest hn, if_pos hcond, hpt, hct]
          · rw [List.map_cons, hpureStep, if_pos hcond, hpt, hct]
        · left
          refine ⟨"KeyError: translated_text", ?_, ?_⟩
          · rw [concatRefsGo_cons_of_short t store openIdx i rest hn, if_pos hcond, hpt, hct]
          · rw [List.map_cons, hpureStep, if_pos hcond, hpt, hct]
        · -- both translated texts present: the merge happens
          have ihres := ih (store.set openIdx { store.getD openIdx default with
              start := (store.getD openIdx default).start + t,
              end_ := (store.getD i default).end_,
              text := (store.getD openIdx default).text ++
                pauseTag ((store.getD i default).start - (store.getD openIdx default).end_) ++
                (store.getD i default).text,
              translated_text := some (pt ++
                pauseTag ((store.getD i default).start - (store.getD openIdx default).end_) ++
                ct) }) openIdx
            (by rw [List.length_set]; exact hlen)
            (fun j hj => by rw [List.length_set]; exact hjs j (by simp [hj]))
            (hpair.sublist hsubl)
          rw [getD_set_self store openIdx _ hlen] at ihres
          rw [List.map_congr_left
            (fun j hj => getD_set_ne store openIdx j _ (Nat.ne_of_lt (horest j hj)))] at ihres
          rcases ihres with ⟨e, hre, hpe⟩ | ⟨ks, st, hre, hlen', hunt, hsub, hpure⟩
          · left
            refine ⟨e, ?_, ?_⟩
            · rw [concatRefsGo_cons_of_short t store openIdx i rest hn, if_pos hcond, hpt, hct]
              exact hre
            · rw [List.map_cons, hpureStep, if_pos hcond, hpt, hct]
              exact hpe
          · right
            refine ⟨ks, st, ?_, ?_, ?_, ?_, ?_⟩
            · rw [concatRefsGo_cons_of_short t store openIdx i rest hn, if_pos hcond, hpt, hct]
              exact hre
            · rw [List.length_set] at hlen'
              exact hlen'
            · intro k hk
              have hk' : k ∉ openIdx :: rest := by
                intro hmem
                rcases List.mem_cons.mp hmem with h | h
                · exact hk (by simp [h])
                · exact hk (by simp [h])
              have hkne : openIdx ≠ k := fun h => hk (by simp [h])
              rw [hunt k hk', getD_set_ne store openIdx k _ hkne]
            · exact hsub.trans hsubl
            · rw [List.map_cons, hpureStep, if_pos hcond, hpt, hct]
              exact hpure
      · -- no merge: the nudged record is closed, `i` becomes the open record
        have ihres := ih (store.set openIdx { store.getD openIdx default with
            start := (store.getD openIdx default).start + t }) i
          (by rw [List.length_set]; exact hilen)
          (fun j hj => by rw [List.length_set]; exact hjs j (by simp [hj]))
          hpair'
        rw [getD_set_ne store openIdx i _ (Nat.ne_of_lt hoi)] at ihres
        rw [List.map_congr_left
          (fun j hj => getD_set_ne store openIdx j _
            (Nat.ne_of_lt (horest j hj)))] at ihres
        rcases ihres with ⟨e, hre, hpe⟩ | ⟨ks, st, hre, hlen', hunt, hsub, hpure⟩
        · left
          refine ⟨e, ?_, ?_⟩
          · rw [concatRefsGo_cons_of_short t store openIdx i rest hn, if_neg hcond, hre]
            rfl
          · rw [List.map_cons, hpureStep, if_neg hcond, hpe]
            rfl
        · right
          refine ⟨openIdx :: ks, st, ?_, ?_, ?_, ?_, ?_⟩
          · rw [concatRefsGo_cons_of_short t store openIdx i rest hn, if_neg hcond, hre]
            rfl
          · rw [List.length_set] at hlen'
            exact hlen'
          · intro k hk
            have hk' : k ∉ i :: rest := fun hmem => hk (by
              rcases List.mem_cons.mp hmem with h | h
              · simp [h]
              · simp [h])
            have hkne : openIdx ≠ k := fun h => hk (by simp [h])
            rw [hunt k hk', getD_set_ne store openIdx k _ hkne]
          · exact List.Sublist.cons₂ openIdx hsub
          · rw [List.map_cons, hpureStep, if_neg hcond, hpure]
            have hopen : st.getD openIdx default = { store.getD openIdx default with
                start := (store.getD openIdx default).start + t } :=
              (hunt openIdx honotin).trans (getD_set_self store openIdx _ hlen)
            rw [List.map_cons, hopen]
            rfl
    · -- neither text is short: no nudge, plain threshold
      push_neg at hn
      have hp3 : 3 ≤ numWords (store.getD openIdx default).text := hn.1
      have hc3 : 3 ≤ numWords (store.getD i default).text := hn.2
      have hpureStep := concatGo_cons_of_words t
        (rest.map (fun k => store.getD k default))
        (p := store.getD openIdx default) (c := store.getD i default) hp3 hc3
      by_cases hcond : (store.getD i default).start - (store.getD openIdx default).end_ ≤ t ∧
          (store.getD i default).end_ - (store.getD openIdx default).start ≤ max_duration
      · rcases hpt : (store.getD openIdx default).translated_text with _ | pt <;>
          rcases hct : (store.getD i default).translated_text with _ | ct
        · left
          refine ⟨"KeyError: translated_text", ?_, ?_⟩
          · rw [concatRefsGo_cons_of_words t store openIdx i rest hp3 hc3, if_pos hcond, hpt, hct]
          · rw [List.map_cons, hpureStep, if_pos hcond, hpt, hct]
        · left
          refine ⟨"KeyError: translated_text", ?_, ?_⟩
          · rw [concatRefsGo_cons_of_words t store openIdx i rest hp3 hc3, if_pos hcond, hpt, hct]
          · rw [List.map_cons, hpureStep, if_pos hcond, hpt, hct]
        · left
          refine ⟨"KeyError: translated_text", ?_, ?_⟩
          · rw [concatRefsGo_cons_of_words t store openIdx i rest hp3 hc3, if_pos hcond, hpt, hct]
          · rw [List.map_cons, hpureStep, if_pos hcond, hpt, hct]
        · have ihres := ih (store.set openIdx { store.getD openIdx default with
              end_ := (store.getD i default).end_,
              text := (store.getD openIdx default).text ++
                pauseTag ((store.getD i default).start - (store.getD openIdx default).end_) ++
                (store.getD i default).text,
              translated_text := some (pt ++
                pauseTag ((store.getD i default).start - (store.getD openIdx default).end_) ++
                ct) }) openIdx
            (by rw [List.length_set]; exact hlen)
            (fun j hj => by rw [List.length_set]; exact hjs j (by simp [hj]))
            (hpair.sublist hsubl)
          rw [getD_set_self store openIdx _ hlen] at ihres
          rw [List.map_congr_left
            (fun j hj => getD_set_ne store openIdx j _ (Nat.ne_of_lt (horest j hj)))] at ihres
          rcases ihres with ⟨e, hre, hpe⟩ | ⟨ks, st, hre, hlen', hunt, hsub, hpure⟩
          · left
            refine ⟨e, ?_, ?_⟩
            · rw [concatRefsGo_cons_of_words t store openIdx i rest hp3 hc3,
                if_pos hcond, hpt, hct]
              exact hre
            · rw [List.map_cons, hpureStep, if_pos hcond, hpt, hct]
              exact hpe
          · right
            refine ⟨ks, st, ?_, ?_, ?_, ?_, ?_⟩
            · rw [concatRefsGo_cons_of_words t store openIdx i rest hp3 hc3,
                if_pos hcond, hpt, hct]
              exact hre
            · rw [List.length_set] at hlen'
              exact hlen'
            · intro k hk
              have hk' : k ∉ openIdx :: rest := by
                intro hmem
                rcases List.mem_cons.mp hmem with h | h
                · exact hk (by simp [h])
                · exact hk (by simp [h])
              have hkne : openIdx ≠ k := fun h => hk (by simp [h])
              rw [hunt k hk', getD_set_ne store openIdx k _ hkne]
            · exact hsub.trans hsubl
            · rw [List.map_cons, hpureStep, if_pos hcond, hpt, hct]
              exact hpure
      · have ihres := ih store i hilen
          (fun j hj => hjs j (by simp [hj]))
          hpair'
        rcases ihres with ⟨e, hre, hpe⟩ | ⟨ks, st, hre, hlen', hunt, hsub, hpure⟩
        · left
          refine ⟨e, ?_, ?_⟩
          · rw [concatRefsGo_cons_of_words t store openIdx i rest hp3 hc3, if_neg hcond, hre]
            rfl
          · rw [List.map_cons, hpureStep, if_neg hcond, hpe]
            rfl
        · right
          refine ⟨openIdx :: ks, st, ?_, ?_, ?_, ?_, ?_⟩
          · rw [concatRefsGo_cons_of_words t store openIdx i rest hp3 hc3, if_neg hcond, hre]
            rfl
          · exact hlen'
          · intro k hk
            have hk' : k ∉ i :: rest := fun hmem => hk (by
              rcases List.mem_cons.mp hmem with h | h
              · simp [h]
              · simp [h])
            exact hunt k hk'
          · exact List.Sublist.cons₂ openIdx hsub
          · rw [List.map_cons, hpureStep, if_neg hcond, hpure]
            have hopen : st.getD openIdx default = store.getD openIdx default :=
              hunt openIdx honotin
            rw [List.map_cons, hopen]
            rfl

/-- Reading every position of a list through `getD` reproduces the
list. -/
lemma map_getD_range {α : Type} [Inhabited α] :
    ∀ l : List α, (List.range l.length).map (fun k => l.getD k default) = l := by
  intro l
  induction l with
  | nil => simp
  | cons x xs ih =>
    rw [List.length_cons, List.range_succ_eq_map, List.map_cons, List.getD_cons_zero,
      List.map_map]
    congr 1

/-- Index range `range (n+1)` is index 0 followed by the indices walked by
`concat_refs`. -/
lemma range_succ_cons (n : ℕ) : List.range (n + 1) = 0 :: List.range' 1 n := by
  rw [List.range_eq_range', List.range'_succ]

/-- Claim C10: the Merger returns (a record list drawn from) the very
records of its input — the returned index list is a sublist of the
input indices — and it mutates those records in place: reading the
final store at the returned indices reproduces exactly the pure
result, and the caller's store keeps its length but not its contents
(first conjunct).  Concretely (second conjunct): merging
`[{0, 2, ...}, {3, 4, ...}]` returns exactly record 0, whose `end`,
`text` and `translated_text` fields have been reassigned in place, so
the caller's first fragment has changed as a side effect. -/
theorem C10_theorem :
    (∀ (store : List Segment) (t : ℚ) (ks : List ℕ) (st : List Segment),
      concat_refs store t = Except.ok (ks, st) →
      ks.Sublist (List.range store.length) ∧
      st.length = store.length ∧
      concat_close_transcripts store t =
        Except.ok (ks.map (fun k => st.getD k default))) ∧
    (concat_refs
        [⟨0, 2, "hello there my friend", some "ha"⟩,
         ⟨3, 4, "nice to see you", some "qa"⟩] (7/2) =
      Except.ok ([0],
        [⟨0, 4, "hello there my friend\n (pause for 1.0 seconds). \nnice to see you",
          some "ha\n (pause for 1.0 seconds). \nqa"⟩,
         ⟨3, 4, "nice to see you", some "qa"⟩]) ∧
     (⟨0, 4, "hello there my friend\n (pause for 1.0 seconds). \nnice to see you",
        some "ha\n (pause for 1.0 seconds). \nqa"⟩ : Segment) ≠
       ⟨0, 2, "hello there my friend", some "ha"⟩) := by
  constructor
  · intro store t ks st heq
    match store with
    | [] =>
      simp only [concat_refs, Except.ok.injEq, Prod.mk.injEq] at heq
      obtain ⟨hks, hst⟩ := heq
      subst hks; subst hst
      exact ⟨by simp, rfl, rfl⟩
    | first :: restS =>
      have hlen1 : (first :: restS).length - 1 = restS.length := by simp
      rw [show concat_refs (first :: restS) t =
          concatRefsGo t (first :: restS) 0 (List.range' 1 restS.length) by
        rw [concat_refs, hlen1]] at heq
      have hspec := concatRefsGo_spec t (List.range' 1 restS.length) (first :: restS) 0
        (by simp)
        (fun j hj => by
          have := (List.mem_range'_1.mp hj).2
          simp only [List.length_cons]
          omega)
        (by
          rw [show (0 : ℕ) :: List.range' 1 restS.length = List.range (restS.length + 1)
            from (range_succ_cons restS.length).symm]
          exact List.pairwise_lt_range _)
      rcases hspec with ⟨e, hre, _⟩ | ⟨ks', st', hre, hlen', hunt, hsub, hpure⟩
      · rw [heq] at hre
        exact absurd hre (by simp)
      · rw [heq] at hre
        simp only [Except.ok.injEq, Prod.mk.injEq] at hre
        obtain ⟨hks, hst⟩ := hre
        subst hks; subst hst
        have hmaps : (List.range' 1 restS.length).map
            (fun k => (first :: restS).getD k default) = restS := by
          have h0 := map_getD_range (first :: restS)
          rw [List.length_cons, range_succ_cons, List.map_cons, List.getD_cons_zero] at h0
          exact (List.cons.injEq _ _ _ _).mp h0 |>.2
        refine ⟨?_, hlen', ?_⟩
        · rw [List.length_cons, range_succ_cons]
          exact hsub
        · show concatGo t first restS = _
          rw [hmaps] at hpure
          exact hpure
  · constructor
    · show concatRefsGo (7/2)
        [⟨0, 2, "hello there my friend", some "ha"⟩, ⟨3, 4, "nice to see you", some "qa"⟩]
        0 [1] = _
      rw [concatRefsGo_cons_of_words (7/2) _ 0 1 [] (by decide) (by decide)]
      simp only [List.getD_cons_succ, List.getD_cons_zero]
      rw [if_pos (by constructor <;> norm_num [max_duration])]
      rw [show (3 : ℚ) - 2 = 1 by norm_num, pauseTag_one]
      simp only [concatRefsGo, List.set]
      norm_num
      decide
    · intro h
      have := congrArg Segment.end_ h
      norm_num at this

/-- Claim C10, witness: the general half of the theorem applied to a
two-fragment store whose fragments stay apart (gap 14 s, threshold 2):
both records are returned unchanged, as indices `[0, 1]` into the
caller's store. -/
theorem C10_witness :
    ([0, 1] : List ℕ).Sublist (List.range
      ([⟨5, 6, "alpha beta gamma", some "x1"⟩,
        ⟨20, 21, "delta epsilon zeta", some "y1"⟩] : List Segment).length) ∧
    ([⟨5, 6, "alpha beta gamma", some "x1"⟩,
      ⟨20, 21, "delta epsilon zeta", some "y1"⟩] : List Segment).length =
      ([⟨5, 6, "alpha beta gamma", some "x1"⟩,
        ⟨20, 21, "delta epsilon zeta", some "y1"⟩] : List Segment).length ∧
    concat_close_transcripts
        [⟨5, 6, "alpha beta gamma", some "x1"⟩,
         ⟨20, 21, "delta epsilon zeta", some "y1"⟩] 2 =
      Except.ok (([0, 1] : List ℕ).map (fun k =>
        ([⟨5, 6, "alpha beta gamma", some "x1"⟩,
          ⟨20, 21, "delta epsilon zeta", some "y1"⟩] : List Segment).getD k default)) :=
  C10_theorem.1
    [⟨5, 6, "alpha beta gamma", some "x1"⟩, ⟨20, 21, "delta epsilon zeta", some "y1"⟩]
    2 [0, 1]
    [⟨5, 6, "alpha beta gamma", some "x1"⟩, ⟨20, 21, "delta epsilon zeta", some "y1"⟩]
    (by
      show concatRefsGo 2
        [⟨5, 6, "alpha beta gamma", some "x1"⟩, ⟨20, 21, "delta epsilon zeta", some "y1"⟩]
        0 [1] = _
      rw [concatRefsGo_cons_of_words 2 _ 0 1 [] (by decide) (by decide)]
      simp only [List.getD_cons_succ, List.getD_cons_zero]
      rw [if_neg (by norm_num [max_duration])]
      rfl)

end CustomDubber
